import Mathlib

/-!
Verification development for `sv_auto_order`: a tool that computes a
compilation order for SystemVerilog files from per-file defines/uses facts.

The embedding follows `src/main.rs`:
* a `File` is a path plus four symbol sets (modelled as lists of names;
  the Rust `HashSet`s are used only through membership);
* `module_defs` / `package_defs` are the global definition tables built by a
  left-to-right fold where the last definer of a name wins (HashMap::insert);
* `file_deps` is the resolved dependency set of a file: the package pass
  followed by the module pass with the package-over-module priority rule;
* `print_deps_recursive` / `print_order` model the depth-first post-order
  emission with a single global visited set.  The iteration order of the
  hash-based dependency sets and of the roots map is not specified by the
  code, so the traversal is parameterised by a dependency-list function `D`
  and a root enumeration `rs`; theorems quantify over all enumerations that
  agree (as sets) with the resolved graph.  The Rust recursion has no fuel;
  the model takes a fuel argument and stability theorems show the result is
  independent of the fuel once it exceeds the number of files.
-/

namespace SvAutoOrder

/-- A parsed source file: its path (`name`, the identity used for equality
and hashing in the Rust code) plus the four symbol sets extracted from its
syntax tree. -/
structure File where
  name : String
  modules_defined : List String
  modules_used : List String
  packages_defined : List String
  packages_used : List String
deriving DecidableEq

/-- Global module-definition table: folding `HashMap::insert` over the files
in input order, so the last file defining a name wins. -/
def module_defs (files : List File) (n : String) : Option File :=
  files.foldl (fun acc f => if n ∈ f.modules_defined then some f else acc) none

/-- Global package/class-definition table, same last-write-wins fold. -/
def package_defs (files : List File) (n : String) : Option File :=
  files.foldl (fun acc f => if n ∈ f.packages_defined then some f else acc) none

/-- Package pass for one used package name: look up the defining file and
record it unless it is the current file itself (equality is by path). -/
def packageEdgeTarget (files : List File) (f : File) (p : String) : Option File :=
  match package_defs files p with
  | some dep => if dep.name = f.name then none else some dep
  | none => none

/-- Module pass for one used module name, with the priority rule: if any
package used by the defining file is defined by the current file, the module
edge is skipped entirely. -/
def moduleEdgeTarget (files : List File) (f : File) (m : String) : Option File :=
  match module_defs files m with
  | some dep =>
    if dep.name = f.name then none
    else if dep.packages_used.any (fun p => f.packages_defined.contains p) then none
    else some dep
  | none => none

/-- The resolved dependency set of one file: surviving package-pass targets
followed by surviving module-pass targets (a set; only membership matters). -/
def file_deps (files : List File) (f : File) : List File :=
  f.packages_used.filterMap (packageEdgeTarget files f)
    ++ f.modules_used.filterMap (moduleEdgeTarget files f)

/-- Name-level dependency edge of the resolved graph: some input file named
`a` has a dependency named `b`. -/
def depEdge (files : List File) (a b : String) : Prop :=
  ∃ f ∈ files, f.name = a ∧ ∃ d ∈ file_deps files f, d.name = b

instance (files : List File) (a b : String) : Decidable (depEdge files a b) := by
  unfold depEdge; infer_instance

/-- A root: no file's resolved dependency set contains this file, i.e. its
dependents (`file_users`) set is empty. -/
def isRoot (files : List File) (f : File) : Bool :=
  files.all (fun g => !(file_deps files g).any (fun d => d.name == f.name))

/-- The names of the root files, in input order. -/
def rootNames (files : List File) : List String :=
  (files.filter (isRoot files)).map File.name

/-- The dependency loop of `print_deps_recursive`: walk the dependency list
in its (hash) iteration order; a dependency already in the global visited set
is skipped, otherwise it is inserted into the visited set, recursed into via
`handler`, and emitted after its subtree.  Returns the emitted names and the
updated visited set. -/
def print_deps_list (handler : String → List String → List String × List String) :
    List String → List String → List String × List String
  | [], vis => ([], vis)
  | d :: rest, vis =>
    if d ∈ vis then print_deps_list handler rest vis
    else
      let r1 := handler d (d :: vis)
      let r2 := print_deps_list handler rest r1.2
      (r1.1 ++ d :: r2.1, r2.2)

/-- `print_deps_recursive`: emit the not-yet-visited dependencies of file
`f` in depth-first post-order.  `D` gives every file's dependency list in
one particular iteration order; the fuel argument bounds recursion depth
(the Rust code needs none because the visited set is finite; the stability
theorems below make this precise). -/
def print_deps_recursive (D : String → List String) :
    Nat → String → List String → List String × List String
  | 0, _, vis => ([], vis)
  | fuel + 1, f, vis => print_deps_list (print_deps_recursive D fuel) (D f) vis

/-- The main loop over the roots: traverse each root's dependencies with the
shared visited set, then emit the root itself (the root is never inserted
into the visited set). -/
def print_order (D : String → List String) (fuel : Nat) :
    List String → List String → List String × List String
  | [], vis => ([], vis)
  | r :: rs, vis =>
    let r1 := print_deps_recursive D fuel r vis
    let r2 := print_order D fuel rs r1.2
    (r1.1 ++ r :: r2.1, r2.2)

/-- One canonical iteration order for the resolved dependency sets: the
order in which the model's lists were built. -/
def canonD (files : List File) (n : String) : List String :=
  match files.find? (fun f => f.name == n) with
  | some f => (file_deps files f).map File.name
  | none => []

/-- The program's emitted sequence for the canonical iteration orders. -/
def canonOrder (files : List File) : List String :=
  (print_order (canonD files) (files.length + 1) (rootNames files) []).1

/-- Number of names of `U` not yet visited; the termination measure. -/
def unvis (U vis : List String) : Nat :=
  (U.filter (fun x => decide (x ∉ vis))).length

/-! ### Generic list lemmas -/

theorem length_filter_le_imp {p q : String → Bool} (l : List String)
    (h : ∀ x, q x = true → p x = true) :
    (l.filter q).length ≤ (l.filter p).length := by
  induction l with
  | nil => simp
  | cons a l ih =>
    by_cases hq : q a = true
    · rw [List.filter_cons_of_pos hq, List.filter_cons_of_pos (h a hq)]
      simpa using ih
    · rw [List.filter_cons_of_neg (by simpa using hq)]
      by_cases hp : p a = true
      · rw [List.filter_cons_of_pos hp]
        exact Nat.le_succ_of_le ih
      · rw [List.filter_cons_of_neg (by simpa using hp)]
        exact ih

theorem length_filter_lt_imp {p q : String → Bool} (l : List String) (x : String)
    (h : ∀ y, q y = true → p y = true) (hx : x ∈ l) (hpx : p x = true) (hqx : q x = false) :
    (l.filter q).length < (l.filter p).length := by
  induction l with
  | nil => cases hx
  | cons a l ih =>
    rcases List.mem_cons.mp hx with rfl | hx2
    · rw [List.filter_cons_of_pos hpx, List.filter_cons_of_neg (by simp [hqx])]
      exact Nat.lt_succ_of_le (length_filter_le_imp l h)
    · by_cases hq : q a = true
      · rw [List.filter_cons_of_pos hq, List.filter_cons_of_pos (h a hq)]
        simpa using ih hx2
      · rw [List.filter_cons_of_neg (by simpa using hq)]
        by_cases hp : p a = true
        · rw [List.filter_cons_of_pos hp]
          exact Nat.lt_succ_of_lt (ih hx2)
        · rw [List.filter_cons_of_neg (by simpa using hp)]
          exact ih hx2

theorem unvis_mono {U vis vis2 : List String} (h : ∀ x, x ∈ vis → x ∈ vis2) :
    unvis U vis2 ≤ unvis U vis := by
  refine length_filter_le_imp U fun x hx => ?_
  simp only [decide_eq_true_eq] at hx ⊢
  exact fun hmem => hx (h x hmem)

theorem unvis_insert_lt {U vis : List String} {d : String} (hdU : d ∈ U) (hdv : d ∉ vis) :
    unvis U (d :: vis) < unvis U vis := by
  refine length_filter_lt_imp U d (fun y hy => ?_) hdU (by simpa using hdv) (by simp)
  simp only [decide_eq_true_eq, List.mem_cons] at hy ⊢
  exact fun hmem => hy (Or.inr hmem)

/-- Splitting an occurrence in a list of the form `l1 ++ a :: l2`. -/
theorem append_cons_eq_split {l1 l2 s t : List String} {a x : String}
    (h : l1 ++ a :: l2 = s ++ x :: t) :
    (∃ t1, l1 = s ++ x :: t1) ∨ (s = l1 ∧ x = a ∧ t = l2) ∨
      (∃ s2, s = l1 ++ a :: s2 ∧ l2 = s2 ++ x :: t) := by
  rcases List.append_eq_append_iff.mp h with ⟨m, hs, hm⟩ | ⟨m, hl, hm⟩
  · rcases m with _ | ⟨b, m'⟩
    · right; left
      simp only [List.append_nil] at hs
      simp only [List.nil_append] at hm
      injection hm with h1 h2
      exact ⟨hs, h1.symm, h2.symm⟩
    · right; right
      simp only [List.cons_append] at hm
      injection hm with h1 h2
      exact ⟨m', by rw [hs, h1], h2⟩
  · rcases m with _ | ⟨b, m'⟩
    · right; left
      simp only [List.append_nil] at hl
      simp only [List.nil_append] at hm
      injection hm with h1 h2
      exact ⟨hl.symm, h1, h2⟩
    · left
      simp only [List.cons_append] at hm
      injection hm with h1 h2
      exact ⟨m', by rw [hl, h1]⟩

/-! ### Equation lemmas for the traversal -/

theorem pdl_nil (H : String → List String → List String × List String) (vis : List String) :
    print_deps_list H [] vis = ([], vis) := rfl

theorem pdl_cons_mem (H : String → List String → List String × List String)
    {d : String} {vis : List String} (rest : List String) (h : d ∈ vis) :
    print_deps_list H (d :: rest) vis = print_deps_list H rest vis := by
  simp [print_deps_list, h]

theorem pdl_cons_not_mem (H : String → List String → List String × List String)
    {d : String} {vis : List String} (rest : List String) (h : d ∉ vis) :
    print_deps_list H (d :: rest) vis =
      ((H d (d :: vis)).1 ++ d :: (print_deps_list H rest (H d (d :: vis)).2).1,
        (print_deps_list H rest (H d (d :: vis)).2).2) := by
  simp [print_deps_list, h]

theorem pdr_zero (D : String → List String) (f : String) (vis : List String) :
    print_deps_recursive D 0 f vis = ([], vis) := rfl

theorem pdr_succ (D : String → List String) (fuel : Nat) (f : String) (vis : List String) :
    print_deps_recursive D (fuel + 1) f vis =
      print_deps_list (print_deps_recursive D fuel) (D f) vis := rfl

theorem po_nil (D : String → List String) (fuel : Nat) (vis : List String) :
    print_order D fuel [] vis = ([], vis) := rfl

theorem po_cons (D : String → List String) (fuel : Nat) (r : String) (rs vis : List String) :
    print_order D fuel (r :: rs) vis =
      ((print_deps_recursive D fuel r vis).1 ++
          r :: (print_order D fuel rs (print_deps_recursive D fuel r vis).2).1,
        (print_order D fuel rs (print_deps_recursive D fuel r vis).2).2) := rfl

/-! ### Invariants of the dependency loop, generic in the recursion handler -/

/-- The visited set after the loop is the starting visited set plus the
emitted names, provided the handler has the same property. -/
theorem pdl_mem (H : String → List String → List String × List String)
    (hH : ∀ d vis x, x ∈ (H d vis).2 ↔ x ∈ (H d vis).1 ∨ x ∈ vis) :
    ∀ (ds vis : List String) (x : String),
      x ∈ (print_deps_list H ds vis).2 ↔ x ∈ (print_deps_list H ds vis).1 ∨ x ∈ vis := by
  intro ds
  induction ds with
  | nil => intro vis x; simp [pdl_nil]
  | cons d rest ih =>
    intro vis x
    by_cases hd : d ∈ vis
    · rw [pdl_cons_mem H rest hd]
      rw [ih vis x]
    · rw [pdl_cons_not_mem H rest hd]
      simp only
      rw [ih _ x, hH]
      simp only [List.mem_append, List.mem_cons]
      tauto

/-- The emitted names are duplicate-free and disjoint from the starting
visited set, provided the handler has both properties. -/
theorem pdl_nodup (H : String → List String → List String × List String)
    (hHm : ∀ d vis x, x ∈ (H d vis).2 ↔ x ∈ (H d vis).1 ∨ x ∈ vis)
    (hHn : ∀ d vis, (H d vis).1.Nodup ∧ ∀ x ∈ (H d vis).1, x ∉ vis) :
    ∀ ds vis, (print_deps_list H ds vis).1.Nodup ∧
      ∀ x ∈ (print_deps_list H ds vis).1, x ∉ vis := by
  intro ds
  induction ds with
  | nil => intro vis; simp [pdl_nil]
  | cons d rest ih =>
    intro vis
    by_cases hd : d ∈ vis
    · rw [pdl_cons_mem H rest hd]; exact ih vis
    · rw [pdl_cons_not_mem H rest hd]
      simp only
      obtain ⟨hn1, hd1⟩ := hHn d (d :: vis)
      obtain ⟨hn2, hd2⟩ := ih (H d (d :: vis)).2
      have hdvis2 : d ∈ (H d (d :: vis)).2 := (hHm d (d :: vis) d).mpr (Or.inr (by simp))
      have hsub1 : ∀ x ∈ (H d (d :: vis)).1, x ∈ (H d (d :: vis)).2 := fun x hx =>
        (hHm d (d :: vis) x).mpr (Or.inl hx)
      constructor
      · rw [List.nodup_append]
        refine ⟨hn1, ?_, ?_⟩
        · rw [List.nodup_cons]
          exact ⟨fun hc => hd2 d hc hdvis2, hn2⟩
        · intro x hx1 hx2
          rcases List.mem_cons.mp hx2 with rfl | hx2'
          · exact hd1 x hx1 (by simp)
          · exact hd2 x hx2' (hsub1 x hx1)
      · intro x hx
        rcases List.mem_append.mp hx with hx1 | hx2
        · intro hv; exact hd1 x hx1 (by simp [hv])
        · rcases List.mem_cons.mp hx2 with rfl | hx2'
          · exact hd
          · intro hv
            exact hd2 x hx2' ((hHm d (d :: vis) x).mpr (Or.inr (by simp [hv])))

/-- Every dependency in the processed list ends up in the visited set. -/
theorem pdl_cov (H : String → List String → List String × List String)
    (hHm : ∀ d vis x, x ∈ (H d vis).2 ↔ x ∈ (H d vis).1 ∨ x ∈ vis) :
    ∀ ds vis d, d ∈ ds → d ∈ (print_deps_list H ds vis).2 := by
  intro ds
  induction ds with
  | nil => intro vis d h; cases h
  | cons d rest ih =>
    intro vis e he
    rcases List.mem_cons.mp he with heq | he'
    · subst heq
      by_cases hd : e ∈ vis
      · rw [pdl_cons_mem H rest hd]
        exact (pdl_mem H hHm rest vis e).mpr (Or.inr hd)
      · rw [pdl_cons_not_mem H rest hd]
        simp only
        exact (pdl_mem H hHm rest _ e).mpr
          (Or.inr ((hHm e (e :: vis) e).mpr (Or.inr (by simp))))
    · by_cases hd : d ∈ vis
      · rw [pdl_cons_mem H rest hd]
        exact ih vis e he'
      · rw [pdl_cons_not_mem H rest hd]
        simp only
        exact ih _ e he'

/-- Every emitted name satisfies any property that holds of all names the
handler can emit and of all names in the processed list. -/
theorem pdl_sub (H : String → List String → List String × List String) (C : String → Prop)
    (hHs : ∀ d vis x, x ∈ (H d vis).1 → C x) :
    ∀ ds vis, (∀ d ∈ ds, C d) → ∀ x ∈ (print_deps_list H ds vis).1, C x := by
  intro ds
  induction ds with
  | nil => intro vis _ x hx; simp [pdl_nil] at hx
  | cons d rest ih =>
    intro vis hds x hx
    by_cases hd : d ∈ vis
    · rw [pdl_cons_mem H rest hd] at hx
      exact ih vis (fun e he => hds e (List.mem_cons_of_mem d he)) x hx
    · rw [pdl_cons_not_mem H rest hd] at hx
      simp only at hx
      rcases List.mem_append.mp hx with hx1 | hx2
      · exact hHs d (d :: vis) x hx1
      · rcases List.mem_cons.mp hx2 with rfl | hx2'
        · exact hds x (by simp)
        · exact ih _ (fun e he => hds e (List.mem_cons_of_mem d he)) x hx2'

/-- Every emitted name is reachable (via one or more `E`-edges) from the
current file, provided the handler emits only reachable names and the
processed list consists of `E`-successors of the current file. -/
theorem pdl_reach (H : String → List String → List String × List String)
    (E : String → String → Prop)
    (hHr : ∀ d vis x, x ∈ (H d vis).1 → Relation.TransGen E d x) :
    ∀ ds vis cur, (∀ d ∈ ds, E cur d) →
      ∀ x ∈ (print_deps_list H ds vis).1, Relation.TransGen E cur x := by
  intro ds
  induction ds with
  | nil => intro vis cur _ x hx; simp [pdl_nil] at hx
  | cons d rest ih =>
    intro vis cur hds x hx
    by_cases hd : d ∈ vis
    · rw [pdl_cons_mem H rest hd] at hx
      exact ih vis cur (fun e he => hds e (List.mem_cons_of_mem d he)) x hx
    · rw [pdl_cons_not_mem H rest hd] at hx
      simp only at hx
      rcases List.mem_append.mp hx with hx1 | hx2
      · exact Relation.TransGen.head (hds d (by simp)) (hHr d (d :: vis) x hx1)
      · rcases List.mem_cons.mp hx2 with rfl | hx2'
        · exact Relation.TransGen.single (hds x (by simp))
        · exact ih _ cur (fun e he => hds e (List.mem_cons_of_mem d he)) x hx2'

/-- Main precedence invariant of the dependency loop: if a name `x` is
emitted and `E x b` is an edge, then `b` was either already visited before
the loop started or is emitted strictly before `x`.  Requires the graph to
be acyclic and enough fuel (measured by `unvis`) in the handler. -/
theorem pdl_prec (H : String → List String → List String × List String)
    (E : String → String → Prop) (U : List String) (n : Nat)
    (hHm : ∀ d vis x, x ∈ (H d vis).2 ↔ x ∈ (H d vis).1 ∨ x ∈ vis)
    (hHr : ∀ d vis x, x ∈ (H d vis).1 → Relation.TransGen E d x)
    (hHc : ∀ d vis b, unvis U vis < n → E d b → b ∈ (H d vis).2)
    (hHp : ∀ d vis, unvis U vis < n → ∀ x b s t, E x b → (H d vis).1 = s ++ x :: t →
      b ∈ vis ∨ b ∈ s)
    (hacy : ∀ z, ¬ Relation.TransGen E z z) :
    ∀ ds vis, (∀ d ∈ ds, d ∈ U) → unvis U vis ≤ n →
      ∀ x b s t, E x b → (print_deps_list H ds vis).1 = s ++ x :: t → b ∈ vis ∨ b ∈ s := by
  intro ds
  induction ds with
  | nil =>
    intro vis _ _ x b s t _ hout
    rw [pdl_nil] at hout
    exact absurd hout (by simp)
  | cons d rest ih =>
    intro vis hdsU hfuel x b s t hE hout
    by_cases hd : d ∈ vis
    · rw [pdl_cons_mem H rest hd] at hout
      exact ih vis (fun e he => hdsU e (List.mem_cons_of_mem d he)) hfuel x b s t hE hout
    · rw [pdl_cons_not_mem H rest hd] at hout
      simp only at hout
      have hdU : d ∈ U := hdsU d (by simp)
      have hlt : unvis U (d :: vis) < n := lt_of_lt_of_le (unvis_insert_lt hdU hd) hfuel
      rcases append_cons_eq_split hout with ⟨t1, h1⟩ | ⟨hs, hxa, _⟩ | ⟨s2, hs, h2⟩
      · -- the occurrence of x lies inside the subtree emitted for d
        rcases hHp d (d :: vis) hlt x b s t1 hE h1 with hb | hb
        · rcases List.mem_cons.mp hb with hbd | hbv
          · -- b = d would close a cycle d →⁺ x → d
            exfalso
            have hx1 : x ∈ (H d (d :: vis)).1 := by rw [h1]; simp
            exact hacy d (Relation.TransGen.tail (hHr d (d :: vis) x hx1) (hbd ▸ hE))
          · exact Or.inl hbv
        · exact Or.inr hb
      · -- the occurrence of x is d itself
        have hb2 : b ∈ (H d (d :: vis)).2 := hHc d (d :: vis) b hlt (hxa ▸ hE)
        rcases (hHm d (d :: vis) b).mp hb2 with hb1 | hbv
        · exact Or.inr (by rw [hs]; exact hb1)
        · rcases List.mem_cons.mp hbv with hbd | hbv'
          · exfalso
            have hE2 : E d b := hxa ▸ hE
            have hE3 : E d d := hbd ▸ hE2
            exact hacy d (Relation.TransGen.single hE3)
          · exact Or.inl hbv'
      · -- the occurrence of x lies in the remainder of the loop
        have hsubv : ∀ y, y ∈ vis → y ∈ (H d (d :: vis)).2 := fun y hy =>
          (hHm d (d :: vis) y).mpr (Or.inr (List.mem_cons_of_mem d hy))
        have hrest := ih (H d (d :: vis)).2
          (fun e he => hdsU e (List.mem_cons_of_mem d he))
          (le_trans (unvis_mono hsubv) hfuel) x b s2 t hE h2
        rcases hrest with hb | hb
        · rcases (hHm d (d :: vis) b).mp hb with hb1 | hbv
          · exact Or.inr (by rw [hs]; exact List.mem_append.mpr (Or.inl hb1))
          · rcases List.mem_cons.mp hbv with hbd | hbv'
            · exact Or.inr (by rw [hs, hbd]; simp)
            · exact Or.inl hbv'
        · exact Or.inr (by rw [hs]; exact List.mem_append.mpr (Or.inr (List.mem_cons_of_mem d hb)))

/-- Two handlers that agree below the fuel budget produce the same loop
results. -/
theorem pdl_congr (H1 H2 : String → List String → List String × List String)
    (U : List String) (n : Nat)
    (hm1 : ∀ d vis x, x ∈ (H1 d vis).2 ↔ x ∈ (H1 d vis).1 ∨ x ∈ vis)
    (hagree : ∀ d vis, unvis U vis < n → H1 d vis = H2 d vis) :
    ∀ ds vis, (∀ d ∈ ds, d ∈ U) → unvis U vis ≤ n →
      print_deps_list H1 ds vis = print_deps_list H2 ds vis := by
  intro ds
  induction ds with
  | nil => intro vis _ _; rfl
  | cons d rest ih =>
    intro vis hds hfuel
    by_cases hd : d ∈ vis
    · rw [pdl_cons_mem H1 rest hd, pdl_cons_mem H2 rest hd]
      exact ih vis (fun e he => hds e (List.mem_cons_of_mem d he)) hfuel
    · rw [pdl_cons_not_mem H1 rest hd, pdl_cons_not_mem H2 rest hd]
      have hdU : d ∈ U := hds d (by simp)
      have hlt : unvis U (d :: vis) < n := lt_of_lt_of_le (unvis_insert_lt hdU hd) hfuel
      have heq : H1 d (d :: vis) = H2 d (d :: vis) := hagree d (d :: vis) hlt
      have hsubv : ∀ y, y ∈ vis → y ∈ (H1 d (d :: vis)).2 := fun y hy =>
        (hm1 d (d :: vis) y).mpr (Or.inr (List.mem_cons_of_mem d hy))
      have hrest : print_deps_list H1 rest (H1 d (d :: vis)).2 =
          print_deps_list H2 rest (H1 d (d :: vis)).2 :=
        ih (H1 d (d :: vis)).2 (fun e he => hds e (List.mem_cons_of_mem d he))
          (le_trans (unvis_mono hsubv) hfuel)
      rw [← heq, hrest]

/-! ### The same invariants for `print_deps_recursive` -/

theorem pdr_mem (D : String → List String) :
    ∀ (fuel : Nat) (f : String) (vis : List String) (x : String),
      x ∈ (print_deps_recursive D fuel f vis).2 ↔
        x ∈ (print_deps_recursive D fuel f vis).1 ∨ x ∈ vis := by
  intro fuel
  induction fuel with
  | zero => intro f vis x; simp [pdr_zero]
  | succ fuel ih =>
    intro f vis x
    rw [pdr_succ]
    exact pdl_mem _ (fun d v y => ih d v y) (D f) vis x

theorem pdr_nodup (D : String → List String) :
    ∀ (fuel : Nat) (f : String) (vis : List String),
      (print_deps_recursive D fuel f vis).1.Nodup ∧
        ∀ x ∈ (print_deps_recursive D fuel f vis).1, x ∉ vis := by
  intro fuel
  induction fuel with
  | zero => intro f vis; simp [pdr_zero]
  | succ fuel ih =>
    intro f vis
    rw [pdr_succ]
    exact pdl_nodup _ (fun d v y => pdr_mem D fuel d v y) (fun d v => ih d v) (D f) vis

theorem pdr_cov (D : String → List String) (fuel : Nat) (hf : 0 < fuel) :
    ∀ (f : String) (vis : List String) (b : String),
      b ∈ D f → b ∈ (print_deps_recursive D fuel f vis).2 := by
  obtain ⟨k, rfl⟩ : ∃ k, fuel = k + 1 := ⟨fuel - 1, by omega⟩
  intro f vis b hb
  rw [pdr_succ]
  exact pdl_cov _ (fun d v y => pdr_mem D k d v y) (D f) vis b hb

theorem pdr_img (D : String → List String) :
    ∀ (fuel : Nat) (f : String) (vis : List String) (x : String),
      x ∈ (print_deps_recursive D fuel f vis).1 → ∃ g, x ∈ D g := by
  intro fuel
  induction fuel with
  | zero => intro f vis x hx; simp [pdr_zero] at hx
  | succ fuel ih =>
    intro f vis x hx
    rw [pdr_succ] at hx
    exact pdl_sub _ (fun y => ∃ g, y ∈ D g) (fun d v y hy => ih d v y hy) (D f) vis
      (fun d hd => ⟨f, hd⟩) x hx

theorem pdr_reach (D : String → List String) (E : String → String → Prop)
    (hE : ∀ a b, b ∈ D a → E a b) :
    ∀ (fuel : Nat) (f : String) (vis : List String) (x : String),
      x ∈ (print_deps_recursive D fuel f vis).1 → Relation.TransGen E f x := by
  intro fuel
  induction fuel with
  | zero => intro f vis x hx; simp [pdr_zero] at hx
  | succ fuel ih =>
    intro f vis x hx
    rw [pdr_succ] at hx
    exact pdl_reach _ E (fun d v y hy => ih d v y hy) (D f) vis f
      (fun d hd => hE f d hd) x hx

theorem pdr_prec (D : String → List String) (E : String → String → Prop) (U : List String)
    (hE : ∀ a b, E a b ↔ b ∈ D a) (hDU : ∀ a b, b ∈ D a → b ∈ U)
    (hacy : ∀ z, ¬ Relation.TransGen E z z) :
    ∀ (fuel : Nat) (f : String) (vis : List String), unvis U vis < fuel →
      ∀ x b s t, E x b →
        (print_deps_recursive D fuel f vis).1 = s ++ x :: t → b ∈ vis ∨ b ∈ s := by
  intro fuel
  induction fuel with
  | zero => intro f vis h; exact absurd h (Nat.not_lt_zero _)
  | succ fuel ih =>
    intro f vis hfuel x b s t hEx hout
    rw [pdr_succ] at hout
    refine pdl_prec (print_deps_recursive D fuel) E U fuel
      (fun d v y => pdr_mem D fuel d v y)
      (fun d v y hy => pdr_reach D E (fun a c hc => (hE a c).mpr hc) fuel d v y hy)
      (fun d v c hlt hEc =>
        pdr_cov D fuel (Nat.lt_of_le_of_lt (Nat.zero_le _) hlt) d v c ((hE d c).mp hEc))
      (fun d v hlt => ih d v hlt) hacy (D f) vis
      (fun d hd => hDU f d hd) (Nat.lt_succ_iff.mp hfuel) x b s t hEx hout

theorem pdr_stable (D : String → List String) (U : List String)
    (hDU : ∀ a b, b ∈ D a → b ∈ U) :
    ∀ (fuel : Nat) (f : String) (vis : List String), unvis U vis < fuel →
      print_deps_recursive D fuel f vis = print_deps_recursive D (fuel + 1) f vis := by
  intro fuel
  induction fuel with
  | zero => intro f vis h; exact absurd h (Nat.not_lt_zero _)
  | succ fuel ih =>
    intro f vis hfuel
    rw [pdr_succ D fuel, pdr_succ D (fuel + 1)]
    exact pdl_congr (print_deps_recursive D fuel) (print_deps_recursive D (fuel + 1)) U fuel
      (fun d v y => pdr_mem D fuel d v y) (fun d v hlt => ih d v hlt)
      (D f) vis (fun d hd => hDU f d hd) (Nat.lt_succ_iff.mp hfuel)

theorem pdr_stable_add (D : String → List String) (U : List String)
    (hDU : ∀ a b, b ∈ D a → b ∈ U) (fuel : Nat) :
    ∀ (k : Nat) (f : String) (vis : List String), unvis U vis < fuel →
      print_deps_recursive D fuel f vis = print_deps_recursive D (fuel + k) f vis := by
  intro k
  induction k with
  | zero => intro f vis _; rfl
  | succ k ih =>
    intro f vis h
    rw [ih f vis h, show fuel + (k + 1) = (fuel + k) + 1 from rfl]
    exact pdr_stable D U hDU (fuel + k) f vis (lt_of_lt_of_le h (Nat.le_add_right _ _))

theorem pdr_stable_ge (D : String → List String) (U : List String)
    (hDU : ∀ a b, b ∈ D a → b ∈ U) (fuel1 fuel2 : Nat) (hle : fuel1 ≤ fuel2)
    (f : String) (vis : List String) (h : unvis U vis < fuel1) :
    print_deps_recursive D fuel1 f vis = print_deps_recursive D fuel2 f vis := by
  obtain ⟨k, rfl⟩ := Nat.exists_eq_add_of_le hle
  exact pdr_stable_add D U hDU fuel1 k f vis h

/-! ### Invariants of the main loop over the roots -/

theorem po_vis_sub (D : String → List String) (fuel : Nat) :
    ∀ (rs vis : List String) (x : String), x ∈ vis → x ∈ (print_order D fuel rs vis).2 := by
  intro rs
  induction rs with
  | nil => intro vis x hx; exact hx
  | cons r rs ih =>
    intro vis x hx
    rw [po_cons]
    exact ih _ x ((pdr_mem D fuel r vis x).mpr (Or.inr hx))

/-- Every root in the enumeration is emitted. -/
theorem po_root_mem (D : String → List String) (fuel : Nat) :
    ∀ (rs vis : List String) (r : String), r ∈ rs → r ∈ (print_order D fuel rs vis).1 := by
  intro rs
  induction rs with
  | nil => intro vis r hr; cases hr
  | cons r0 rs ih =>
    intro vis r hr
    rw [po_cons]
    rcases List.mem_cons.mp hr with heq | hr'
    · simp [heq]
    · simp only [List.mem_append, List.mem_cons]
      exact Or.inr (Or.inr (ih _ r hr'))

/-- Every emitted name is a root of the enumeration or lies in the image of
the dependency-list function. -/
theorem po_outchar (D : String → List String) (fuel : Nat) :
    ∀ (rs vis : List String) (x : String), x ∈ (print_order D fuel rs vis).1 →
      x ∈ rs ∨ ∃ g, x ∈ D g := by
  intro rs
  induction rs with
  | nil => intro vis x hx; simp [po_nil] at hx
  | cons r rs ih =>
    intro vis x hx
    rw [po_cons] at hx
    simp only [List.mem_append, List.mem_cons] at hx
    rcases hx with hx1 | heq | hx2
    · exact Or.inr (pdr_img D fuel r vis x hx1)
    · exact Or.inl (by simp [heq])
    · rcases ih _ x hx2 with h | h
      · exact Or.inl (List.mem_cons_of_mem r h)
      · exact Or.inr h

/-- An emitted name is a root of the enumeration or was not yet visited. -/
theorem po_disj (D : String → List String) (fuel : Nat) :
    ∀ (rs vis : List String) (x : String), x ∈ (print_order D fuel rs vis).1 →
      x ∈ rs ∨ x ∉ vis := by
  intro rs
  induction rs with
  | nil => intro vis x hx; simp [po_nil] at hx
  | cons r rs ih =>
    intro vis x hx
    rw [po_cons] at hx
    simp only [List.mem_append, List.mem_cons] at hx
    rcases hx with hx1 | heq | hx2
    · exact Or.inr ((pdr_nodup D fuel r vis).2 x hx1)
    · exact Or.inl (by simp [heq])
    · rcases ih _ x hx2 with h | h
      · exact Or.inl (List.mem_cons_of_mem r h)
      · exact Or.inr fun hv =>
          h ((pdr_mem D fuel r vis x).mpr (Or.inr hv))

/-- No duplicates in the emitted sequence: the roots are pairwise distinct
and are used by nobody, and every other name is emitted at most once thanks
to the shared visited set. -/
theorem po_nodup (D : String → List String) (fuel : Nat) :
    ∀ (rs vis : List String), (∀ r ∈ rs, ∀ g, r ∉ D g) → rs.Nodup →
      (∀ x ∈ vis, ∃ g, x ∈ D g) → (print_order D fuel rs vis).1.Nodup := by
  intro rs
  induction rs with
  | nil => intro vis _ _ _; simp [po_nil]
  | cons r rs ih =>
    intro vis hroots hnd hvis
    rw [po_cons]
    have hcn := pdr_nodup D fuel r vis
    have himg : ∀ x ∈ (print_deps_recursive D fuel r vis).1, ∃ g, x ∈ D g :=
      fun x hx => pdr_img D fuel r vis x hx
    have hvis1 : ∀ x ∈ (print_deps_recursive D fuel r vis).2, ∃ g, x ∈ D g := by
      intro x hx
      rcases (pdr_mem D fuel r vis x).mp hx with h | h
      · exact himg x h
      · exact hvis x h
    have ho2 := ih (print_deps_recursive D fuel r vis).2
      (fun e he => hroots e (List.mem_cons_of_mem r he)) (List.Nodup.of_cons hnd) hvis1
    rw [List.nodup_append]
    refine ⟨hcn.1, ?_, ?_⟩
    · rw [List.nodup_cons]
      refine ⟨fun hc => ?_, ho2⟩
      rcases po_outchar D fuel rs _ r hc with h | ⟨g, hg⟩
      · exact (List.nodup_cons.mp hnd).1 h
      · exact hroots r (by simp) g hg
    · intro x hx1 hx2
      rcases List.mem_cons.mp hx2 with heq | hx2'
      · obtain ⟨g, hg⟩ := himg x hx1
        exact hroots r (by simp) g (heq ▸ hg)
      · rcases po_disj D fuel rs _ x hx2' with h | h
        · obtain ⟨g, hg⟩ := himg x hx1
          exact hroots x (List.mem_cons_of_mem r h) g hg
        · exact h ((pdr_mem D fuel r vis x).mpr (Or.inl hx1))

/-- Every emitted name is a root or reachable from some root via `E`. -/
theorem po_reach (D : String → List String) (E : String → String → Prop)
    (hE : ∀ a b, b ∈ D a → E a b) (fuel : Nat) :
    ∀ (rs vis : List String) (x : String), x ∈ (print_order D fuel rs vis).1 →
      x ∈ rs ∨ ∃ r ∈ rs, Relation.TransGen E r x := by
  intro rs
  induction rs with
  | nil => intro vis x hx; simp [po_nil] at hx
  | cons r rs ih =>
    intro vis x hx
    rw [po_cons] at hx
    simp only [List.mem_append, List.mem_cons] at hx
    rcases hx with hx1 | heq | hx2
    · exact Or.inr ⟨r, by simp, pdr_reach D E hE fuel r vis x hx1⟩
    · exact Or.inl (by simp [heq])
    · rcases ih _ x hx2 with h | ⟨r2, hr2, hreach⟩
      · exact Or.inl (List.mem_cons_of_mem r h)
      · exact Or.inr ⟨r2, List.mem_cons_of_mem r hr2, hreach⟩

/-- Precedence over the whole run: along an edge `E a b`, every occurrence
of `a` in the emitted sequence is preceded by `b` (or `b` was visited before
the run started). -/
theorem po_prec (D : String → List String) (E : String → String → Prop) (U : List String)
    (hE : ∀ a b, E a b ↔ b ∈ D a) (hDU : ∀ a b, b ∈ D a → b ∈ U)
    (hacy : ∀ z, ¬ Relation.TransGen E z z) (fuel : Nat) :
    ∀ (rs vis : List String), unvis U vis < fuel →
      ∀ a b s t, E a b → (print_order D fuel rs vis).1 = s ++ a :: t →
        b ∈ vis ∨ b ∈ s := by
  intro rs
  induction rs with
  | nil =>
    intro vis _ a b s t _ hout
    rw [po_nil] at hout
    exact absurd hout (by simp)
  | cons r rs ih =>
    intro vis hfuel a b s t hEab hout
    rw [po_cons] at hout
    simp only at hout
    rcases append_cons_eq_split hout with ⟨t1, h1⟩ | ⟨hs, hra, _⟩ | ⟨s2, hs, h2⟩
    · exact pdr_prec D E U hE hDU hacy fuel r vis hfuel a b s t1 hEab h1
    · have hbD : b ∈ D a := (hE a b).mp hEab
      have hb2 : b ∈ (print_deps_recursive D fuel r vis).2 :=
        pdr_cov D fuel (Nat.lt_of_le_of_lt (Nat.zero_le _) hfuel) r vis b (hra ▸ hbD)
      rcases (pdr_mem D fuel r vis b).mp hb2 with h | h
      · exact Or.inr (by rw [hs]; exact h)
      · exact Or.inl h
    · have hsubv : ∀ y, y ∈ vis → y ∈ (print_deps_recursive D fuel r vis).2 :=
        fun y hy => (pdr_mem D fuel r vis y).mpr (Or.inr hy)
      have hfuel1 : unvis U (print_deps_recursive D fuel r vis).2 < fuel :=
        Nat.lt_of_le_of_lt (unvis_mono hsubv) hfuel
      rcases ih _ hfuel1 a b s2 t hEab h2 with hb | hb
      · rcases (pdr_mem D fuel r vis b).mp hb with h | h
        · exact Or.inr (by rw [hs]; exact List.mem_append.mpr (Or.inl h))
        · exact Or.inl h
      · exact Or.inr (by rw [hs]; exact List.mem_append.mpr (Or.inr (List.mem_cons_of_mem r hb)))

/-- The run is independent of the fuel once the fuel exceeds the number of
unvisited names: the Rust recursion terminates even on cyclic graphs. -/
theorem po_stable (D : String → List String) (U : List String)
    (hDU : ∀ a b, b ∈ D a → b ∈ U) (fuel1 fuel2 : Nat) (hle : fuel1 ≤ fuel2) :
    ∀ (rs vis : List String), unvis U vis < fuel1 →
      print_order D fuel1 rs vis = print_order D fuel2 rs vis := by
  intro rs
  induction rs with
  | nil => intro vis _; rfl
  | cons r rs ih =>
    intro vis hfuel
    rw [po_cons, po_cons]
    have hc : print_deps_recursive D fuel1 r vis = print_deps_recursive D fuel2 r vis :=
      pdr_stable_ge D U hDU fuel1 fuel2 hle r vis hfuel
    have hsubv : ∀ y, y ∈ vis → y ∈ (print_deps_recursive D fuel1 r vis).2 :=
      fun y hy => (pdr_mem D fuel1 r vis y).mpr (Or.inr hy)
    have hrest := ih (print_deps_recursive D fuel1 r vis).2
      (Nat.lt_of_le_of_lt (unvis_mono hsubv) hfuel)
    rw [← hc, hrest]

/-! ### Facts about the resolver -/

theorem foldl_def_mem (field : File → List String) (files : List File) (n : String) (f : File) :
    ∀ acc : Option File,
      files.foldl (fun acc g => if n ∈ field g then some g else acc) acc = some f →
      (f ∈ files ∧ n ∈ field f) ∨ acc = some f := by
  induction files with
  | nil => intro acc h; exact Or.inr h
  | cons g gs ih =>
    intro acc h
    rw [List.foldl_cons] at h
    rcases ih _ h with ⟨hmem, hfield⟩ | hacc
    · exact Or.inl ⟨List.mem_cons_of_mem g hmem, hfield⟩
    · by_cases hg : n ∈ field g
      · rw [if_pos hg] at hacc
        injection hacc with hacc
        exact Or.inl ⟨by simp [hacc], hacc ▸ hg⟩
      · rw [if_neg hg] at hacc
        exact Or.inr hacc

theorem module_defs_mem {files : List File} {n : String} {f : File}
    (h : module_defs files n = some f) : f ∈ files ∧ n ∈ f.modules_defined := by
  rcases foldl_def_mem File.modules_defined files n f none h with hf | habs
  · exact hf
  · cases habs

theorem package_defs_mem {files : List File} {n : String} {f : File}
    (h : package_defs files n = some f) : f ∈ files ∧ n ∈ f.packages_defined := by
  rcases foldl_def_mem File.packages_defined files n f none h with hf | habs
  · exact hf
  · cases habs

theorem packageEdgeTarget_some {files : List File} {f d : File} {p : String}
    (h : packageEdgeTarget files f p = some d) :
    package_defs files p = some d ∧ d.name ≠ f.name := by
  unfold packageEdgeTarget at h
  split at h
  next dep hp =>
    split at h
    next => cases h
    next hname =>
      injection h with h
      subst h
      exact ⟨hp, hname⟩
  next => cases h

theorem moduleEdgeTarget_some {files : List File} {f d : File} {m : String}
    (h : moduleEdgeTarget files f m = some d) :
    module_defs files m = some d ∧ d.name ≠ f.name ∧
      ∀ p ∈ d.packages_used, p ∉ f.packages_defined := by
  unfold moduleEdgeTarget at h
  split at h
  next dep hm =>
    split at h
    next => cases h
    next hname =>
      split at h
      next => cases h
      next hprio =>
        injection h with h
        subst h
        refine ⟨hm, hname, fun p hp hpd => ?_⟩
        exact hprio (List.any_eq_true.mpr ⟨p, hp, by simpa using hpd⟩)
  next => cases h

/-- Every resolved dependency is one of the input files. -/
theorem file_deps_mem_files {files : List File} {f d : File}
    (h : d ∈ file_deps files f) : d ∈ files := by
  unfold file_deps at h
  rcases List.mem_append.mp h with h1 | h2
  · obtain ⟨p, _, hp⟩ := List.mem_filterMap.mp h1
    exact (package_defs_mem (packageEdgeTarget_some hp).1).1
  · obtain ⟨m, _, hm⟩ := List.mem_filterMap.mp h2
    exact (module_defs_mem (moduleEdgeTarget_some hm).1).1

/-- No self-edges (by path equality). -/
theorem file_deps_name_ne {files : List File} {f d : File}
    (h : d ∈ file_deps files f) : d.name ≠ f.name := by
  unfold file_deps at h
  rcases List.mem_append.mp h with h1 | h2
  · obtain ⟨p, _, hp⟩ := List.mem_filterMap.mp h1
    exact (packageEdgeTarget_some hp).2
  · obtain ⟨m, _, hm⟩ := List.mem_filterMap.mp h2
    exact (moduleEdgeTarget_some hm).2.1

theorem depEdge_target_mem {files : List File} {a b : String}
    (h : depEdge files a b) : b ∈ files.map File.name := by
  obtain ⟨f, _, _, d, hd, rfl⟩ := h
  exact List.mem_map.mpr ⟨d, file_deps_mem_files hd, rfl⟩

/-- With distinct paths, the canonical dependency-list function enumerates
exactly the resolved dependency edges. -/
theorem canonD_spec {files : List File} (hnames : (files.map File.name).Nodup) :
    ∀ n b, b ∈ canonD files n ↔ depEdge files n b := by
  intro n b
  unfold canonD
  split
  next f hfind =>
    have hfmem : f ∈ files := List.mem_of_find?_eq_some hfind
    have hfname : f.name = n := by simpa using List.find?_some hfind
    simp only [List.mem_map]
    constructor
    · rintro ⟨d, hd, rfl⟩
      exact ⟨f, hfmem, hfname, d, hd, rfl⟩
    · rintro ⟨g, hg, hgname, d, hd, rfl⟩
      have : g = f := List.inj_on_of_nodup_map hnames hg hfmem (by rw [hgname, hfname])
      exact ⟨d, this ▸ hd, rfl⟩
  next hfind =>
    simp only [List.not_mem_nil, false_iff]
    rintro ⟨g, hg, rfl, _⟩
    have := List.find?_eq_none.mp hfind g hg
    simp at this

theorem unvis_nil (U : List String) : unvis U [] = U.length := by
  simp [unvis]

theorem rootNames_iff {files : List File} {r : String} :
    r ∈ rootNames files ↔ ∃ f ∈ files, isRoot files f = true ∧ f.name = r := by
  unfold rootNames
  simp only [List.mem_map, List.mem_filter]
  constructor
  · rintro ⟨f, ⟨hf, hr⟩, rfl⟩
    exact ⟨f, hf, hr, rfl⟩
  · rintro ⟨f, hf, hr, rfl⟩
    exact ⟨f, ⟨hf, hr⟩, rfl⟩

theorem isRoot_iff {files : List File} {f : File} :
    isRoot files f = true ↔ ∀ g ∈ files, ∀ d ∈ file_deps files g, d.name ≠ f.name := by
  unfold isRoot
  simp only [List.all_eq_true, Bool.not_eq_true']
  constructor
  · intro h g hg d hd
    have := h g hg
    rw [List.any_eq_false] at this
    simpa using this d hd
  · intro h g hg
    rw [List.any_eq_false]
    intro d hd
    simpa using h g hg d hd

/-- A name in the root list is the target of no resolved edge. -/
theorem rootNames_no_edge {files : List File} {r : String}
    (hr : r ∈ rootNames files) : ∀ a, ¬ depEdge files a r := by
  obtain ⟨f, _, hroot, rfl⟩ := rootNames_iff.mp hr
  rintro a ⟨g, hg, _, d, hd, hdname⟩
  exact isRoot_iff.mp hroot g hg d hd hdname

/-- Conversely, an edge to a file makes it a non-root. -/
theorem isRoot_false_of_edge {files : List File} {g f d : File}
    (hg : g ∈ files) (hd : d ∈ file_deps files g) (hdname : d.name = f.name) :
    isRoot files f = false := by
  rcases h : isRoot files f with _ | _
  · rfl
  · exact absurd hdname (isRoot_iff.mp h g hg d hd)

/-! ### Acyclicity helpers -/

/-- A relation whose only edge is `x → y`, with `x ≠ y`, has no cycles. -/
theorem acyclic_of_single_edge (R : String → String → Prop) (x y : String)
    (h : ∀ a b, R a b → a = x ∧ b = y) (hxy : x ≠ y) :
    ∀ z, ¬ Relation.TransGen R z z := by
  intro z hz
  obtain ⟨c, hzc, hcz⟩ := Relation.TransGen.head'_iff.mp hz
  obtain ⟨rfl, rfl⟩ := h z c hzc
  rcases Relation.ReflTransGen.cases_head hcz with heq | ⟨e, hye, _⟩
  · exact hxy heq.symm
  · exact hxy ((h _ _ hye).1 ▸ rfl)

/-- If `S` is closed under predecessors of `R`, then anything that reaches
`S` lies in `S`. -/
theorem reflTransGen_closed (R : String → String → Prop) (S : String → Prop)
    (hclosed : ∀ a b, R a b → S b → S a) :
    ∀ r x, Relation.ReflTransGen R r x → S x → S r := by
  intro r x h
  induction h using Relation.ReflTransGen.head_induction_on with
  | refl => exact fun hx => hx
  | head hab _ ih => exact fun hx => hclosed _ _ hab (ih hx)

/-- A surviving package edge target is found by rewriting the definition. -/
theorem packageEdgeTarget_eq {files : List File} {f F2 : File} {p : String}
    (hres : package_defs files p = some F2) (hne2 : F2.name ≠ f.name) :
    packageEdgeTarget files f p = some F2 := by
  unfold packageEdgeTarget
  rw [hres]
  show (if F2.name = f.name then none else some F2) = some F2
  rw [if_neg hne2]

/-- A module edge is skipped by the priority rule whenever the defining file
uses a package that the current file defines. -/
theorem moduleEdgeTarget_skip {files : List File} {f Dp : File} {m p : String}
    (hm : module_defs files m = some Dp) (hne : Dp.name ≠ f.name)
    (hp1 : p ∈ Dp.packages_used) (hp2 : p ∈ f.packages_defined) :
    moduleEdgeTarget files f m = none := by
  unfold moduleEdgeTarget
  rw [hm]
  show (if Dp.name = f.name then none
    else if Dp.packages_used.any (fun q => f.packages_defined.contains q) then none
    else some Dp) = none
  rw [if_neg hne, if_pos (List.any_eq_true.mpr ⟨p, hp1, by simpa using hp2⟩)]

/-- A surviving module edge target is found by rewriting the definition. -/
theorem moduleEdgeTarget_eq {files : List File} {f Dp : File} {m : String}
    (hm : module_defs files m = some Dp) (hne : Dp.name ≠ f.name)
    (hprio : ∀ p ∈ Dp.packages_used, p ∉ f.packages_defined) :
    moduleEdgeTarget files f m = some Dp := by
  unfold moduleEdgeTarget
  rw [hm]
  show (if Dp.name = f.name then none
    else if Dp.packages_used.any (fun q => f.packages_defined.contains q) then none
    else some Dp) = some Dp
  rw [if_neg hne, if_neg ?_]
  intro hany
  obtain ⟨p, hp, hpd⟩ := List.any_eq_true.mp hany
  exact hprio p hp (by simpa using hpd)

theorem packageEdgeTarget_mem_deps {files : List File} {f F2 : File} {p : String}
    (hp : p ∈ f.packages_used) (ht : packageEdgeTarget files f p = some F2) :
    F2 ∈ file_deps files f :=
  List.mem_append.mpr (Or.inl (List.mem_filterMap.mpr ⟨p, hp, ht⟩))

theorem moduleEdgeTarget_mem_deps {files : List File} {f Dp : File} {m : String}
    (hm : m ∈ f.modules_used) (ht : moduleEdgeTarget files f m = some Dp) :
    Dp ∈ file_deps files f :=
  List.mem_append.mpr (Or.inr (List.mem_filterMap.mpr ⟨m, hm, ht⟩))

/-! ### Emission completeness: in acyclic graphs everything is emitted -/

/-- Emitted names have all their dependencies in the final visited set
(dependency-loop level). -/
theorem pdl_emitcov (H : String → List String → List String × List String)
    (D : String → List String) (U : List String) (n : Nat)
    (hHm : ∀ d vis x, x ∈ (H d vis).2 ↔ x ∈ (H d vis).1 ∨ x ∈ vis)
    (hHc : ∀ d vis b, unvis U vis < n → b ∈ D d → b ∈ (H d vis).2)
    (hHe : ∀ d vis, unvis U vis < n → ∀ x ∈ (H d vis).1, ∀ b ∈ D x, b ∈ (H d vis).2) :
    ∀ ds vis, (∀ d ∈ ds, d ∈ U) → unvis U vis ≤ n →
      ∀ x ∈ (print_deps_list H ds vis).1, ∀ b ∈ D x,
        b ∈ (print_deps_list H ds vis).2 := by
  intro ds
  induction ds with
  | nil => intro vis _ _ x hx; simp [pdl_nil] at hx
  | cons d rest ih =>
    intro vis hdsU hfuel x hx b hb
    by_cases hd : d ∈ vis
    · rw [pdl_cons_mem H rest hd] at hx ⊢
      exact ih vis (fun e he => hdsU e (List.mem_cons_of_mem d he)) hfuel x hx b hb
    · rw [pdl_cons_not_mem H rest hd] at hx ⊢
      simp only at hx ⊢
      have hdU : d ∈ U := hdsU d (by simp)
      have hlt : unvis U (d :: vis) < n := lt_of_lt_of_le (unvis_insert_lt hdU hd) hfuel
      have hsubv : ∀ y, y ∈ vis → y ∈ (H d (d :: vis)).2 := fun y hy =>
        (hHm d (d :: vis) y).mpr (Or.inr (List.mem_cons_of_mem d hy))
      have hfin : ∀ y, y ∈ (H d (d :: vis)).2 →
          y ∈ (print_deps_list H rest (H d (d :: vis)).2).2 :=
        fun y hy => (pdl_mem H hHm rest _ y).mpr (Or.inr hy)
      rcases List.mem_append.mp hx with hx1 | hx2
      · exact hfin b (hHe d (d :: vis) hlt x hx1 b hb)
      · rcases List.mem_cons.mp hx2 with heq | hx2b
        · exact hfin b (hHc d (d :: vis) b hlt (heq ▸ hb))
        · exact ih _ (fun e he => hdsU e (List.mem_cons_of_mem d he))
            (le_trans (unvis_mono hsubv) hfuel) x hx2b b hb

theorem pdr_emitcov (D : String → List String) (U : List String)
    (hDU : ∀ a b, b ∈ D a → b ∈ U) :
    ∀ (fuel : Nat) (f : String) (vis : List String), unvis U vis < fuel →
      ∀ x ∈ (print_deps_recursive D fuel f vis).1, ∀ b ∈ D x,
        b ∈ (print_deps_recursive D fuel f vis).2 := by
  intro fuel
  induction fuel with
  | zero => intro f vis h; exact absurd h (Nat.not_lt_zero _)
  | succ fuel ih =>
    intro f vis hfuel x hx b hb
    rw [pdr_succ] at hx ⊢
    exact pdl_emitcov (print_deps_recursive D fuel) D U fuel
      (fun d v y => pdr_mem D fuel d v y)
      (fun d v c hlt hc =>
        pdr_cov D fuel (Nat.lt_of_le_of_lt (Nat.zero_le _) hlt) d v c hc)
      (fun d v hlt => ih d v hlt)
      (D f) vis (fun e he => hDU f e he) (Nat.lt_succ_iff.mp hfuel) x hx b hb

theorem po_vis_char (D : String → List String) (fuel : Nat) :
    ∀ (rs vis : List String) (x : String), x ∈ (print_order D fuel rs vis).2 →
      x ∈ (print_order D fuel rs vis).1 ∨ x ∈ vis := by
  intro rs
  induction rs with
  | nil => intro vis x hx; exact Or.inr hx
  | cons r rs ih =>
    intro vis x hx
    rw [po_cons] at hx ⊢
    simp only at hx ⊢
    rcases ih _ x hx with h | h
    · exact Or.inl (List.mem_append.mpr (Or.inr (List.mem_cons_of_mem r h)))
    · rcases (pdr_mem D fuel r vis x).mp h with h2 | h2
      · exact Or.inl (List.mem_append.mpr (Or.inl h2))
      · exact Or.inr h2

theorem po_emitcov (D : String → List String) (U : List String)
    (hDU : ∀ a b, b ∈ D a → b ∈ U) (fuel : Nat) :
    ∀ (rs vis : List String), unvis U vis < fuel →
      ∀ x ∈ (print_order D fuel rs vis).1, ∀ b ∈ D x,
        b ∈ (print_order D fuel rs vis).2 := by
  intro rs
  induction rs with
  | nil => intro vis _ x hx; simp [po_nil] at hx
  | cons r rs ih =>
    intro vis hfuel x hx b hb
    rw [po_cons] at hx ⊢
    simp only at hx ⊢
    have hsubv : ∀ y, y ∈ vis → y ∈ (print_deps_recursive D fuel r vis).2 :=
      fun y hy => (pdr_mem D fuel r vis y).mpr (Or.inr hy)
    have hfuel1 : unvis U (print_deps_recursive D fuel r vis).2 < fuel :=
      Nat.lt_of_le_of_lt (unvis_mono hsubv) hfuel
    have hvisfin : ∀ y, y ∈ (print_deps_recursive D fuel r vis).2 →
        y ∈ (print_order D fuel rs (print_deps_recursive D fuel r vis).2).2 :=
      fun y hy => po_vis_sub D fuel rs _ y hy
    rcases List.mem_append.mp hx with hx1 | hx2
    · exact hvisfin b (pdr_emitcov D U hDU fuel r vis hfuel x hx1 b hb)
    · rcases List.mem_cons.mp hx2 with heq | hx2b
      · exact hvisfin b (pdr_cov D fuel (Nat.lt_of_le_of_lt (Nat.zero_le _) hfuel)
          r vis b (heq ▸ hb))
      · exact ih _ hfuel1 x hx2b b hb

/-- The set of emitted names is closed under dependency edges. -/
theorem po_emit_closed (D : String → List String) (U : List String)
    (hDU : ∀ a b, b ∈ D a → b ∈ U) (fuel : Nat) (rs : List String)
    (hfuel : unvis U [] < fuel) :
    ∀ x b, x ∈ (print_order D fuel rs []).1 → b ∈ D x →
      b ∈ (print_order D fuel rs []).1 := by
  intro x b hx hb
  rcases po_vis_char D fuel rs [] b
      (po_emitcov D U hDU fuel rs [] hfuel x hx b hb) with h | h
  · exact h
  · cases h

/-- In an acyclic resolved graph, every file can climb its dependents chain
up to a root: the chain is duplicate-free (a repeat would be a cycle) and
hence bounded by the number of files. -/
theorem root_climb (files : List File)
    (hacy : ∀ z, ¬ Relation.TransGen (depEdge files) z z) :
    ∀ (k : Nat) (g : File), g ∈ files → ∀ (seen : List String), seen.Nodup →
      (∀ x ∈ seen, x ∈ files.map File.name) → g.name ∉ seen →
      (∀ x ∈ seen, Relation.TransGen (depEdge files) g.name x) →
      (files.map File.name).length < seen.length + k →
      ∃ r ∈ files, isRoot files r = true ∧
        Relation.ReflTransGen (depEdge files) r.name g.name := by
  intro k
  induction k with
  | zero =>
    intro g hg seen hnd hsub hgs _ hlen
    exfalso
    have hnd2 : (g.name :: seen).Nodup := List.nodup_cons.mpr ⟨hgs, hnd⟩
    have hsub2 : ∀ x ∈ g.name :: seen, x ∈ files.map File.name := by
      intro x hx
      rcases List.mem_cons.mp hx with rfl | hx2
      · exact List.mem_map.mpr ⟨g, hg, rfl⟩
      · exact hsub x hx2
    have hcard1 : (g.name :: seen).toFinset.card = (g.name :: seen).length :=
      List.toFinset_card_of_nodup hnd2
    have hcard2 : (g.name :: seen).toFinset ⊆ (files.map File.name).toFinset :=
      fun x hx => List.mem_toFinset.mpr (hsub2 x (List.mem_toFinset.mp hx))
    have hcard3 := Finset.card_le_card hcard2
    have hcard4 := List.toFinset_card_le (files.map File.name)
    rw [hcard1] at hcard3
    simp only [List.length_cons] at hcard3
    omega
  | succ k ih =>
    intro g hg seen hnd hsub hgs hchain hlen
    by_cases hroot : isRoot files g = true
    · exact ⟨g, hg, hroot, Relation.ReflTransGen.refl⟩
    · have hnall : ¬ ∀ g2 ∈ files, ∀ d ∈ file_deps files g2, d.name ≠ g.name :=
        fun hall => hroot (isRoot_iff.mpr hall)
      push_neg at hnall
      obtain ⟨g2, hg2, d, hd, hdname⟩ := hnall
      have hedge : depEdge files g2.name g.name := ⟨g2, hg2, rfl, d, hd, hdname⟩
      have hg2new : g2.name ∉ g.name :: seen := by
        intro hmem
        rcases List.mem_cons.mp hmem with heq | hseen
        · exact hacy g.name (Relation.TransGen.single (heq ▸ hedge))
        · exact hacy g2.name
            (Relation.TransGen.trans (Relation.TransGen.single hedge) (hchain _ hseen))
      have hchain2 : ∀ x ∈ g.name :: seen,
          Relation.TransGen (depEdge files) g2.name x := by
        intro x hx
        rcases List.mem_cons.mp hx with rfl | hx2
        · exact Relation.TransGen.single hedge
        · exact Relation.TransGen.head hedge (hchain x hx2)
      have hsub2 : ∀ x ∈ g.name :: seen, x ∈ files.map File.name := by
        intro x hx
        rcases List.mem_cons.mp hx with rfl | hx2
        · exact List.mem_map.mpr ⟨g, hg, rfl⟩
        · exact hsub x hx2
      obtain ⟨r, hr, hrroot, hpath⟩ := ih g2 hg2 (g.name :: seen)
        (List.nodup_cons.mpr ⟨hgs, hnd⟩) hsub2 hg2new hchain2
        (by simp only [List.length_cons]; omega)
      exact ⟨r, hr, hrroot, Relation.ReflTransGen.tail hpath hedge⟩

/-! ### Claim C1: acyclic ordering -/

/-- **C1**: for every input file set whose resolved dependency graph (after
the priority rule) is acyclic, and for every edge `a → b` of the per-file
dependency sets, file `b` appears strictly before file `a` in the emitted
output sequence: both are emitted, and every occurrence of `a` is preceded
by `b` — for every hash-iteration order `D` of the dependency sets, every
root enumeration `rs` and enough fuel. -/
theorem C1_acyclic_ordering (files : List File) (D : String → List String)
    (rs : List String) (fuel : Nat) (a b : String)
    (hD : ∀ n m, m ∈ D n ↔ depEdge files n m)
    (hrs : ∀ r, r ∈ rs ↔ r ∈ rootNames files)
    (hfuel : files.length < fuel)
    (hacy : ∀ x, ¬ Relation.TransGen (depEdge files) x x)
    (hedge : depEdge files a b) :
    a ∈ (print_order D fuel rs []).1 ∧ b ∈ (print_order D fuel rs []).1 ∧
    ∀ s t, (print_order D fuel rs []).1 = s ++ a :: t → b ∈ s := by
  have hDU : ∀ x y, y ∈ D x → y ∈ files.map File.name := fun x y hy =>
    depEdge_target_mem ((hD x y).mp hy)
  have hacyD : ∀ z, ¬ Relation.TransGen (fun x y => y ∈ D x) z z := by
    intro z hz
    exact hacy z (Relation.TransGen.mono (fun x y hxy => (hD x y).mp hxy) hz)
  have hfuel2 : unvis (files.map File.name) [] < fuel := by
    rw [unvis_nil, List.length_map]; exact hfuel
  obtain ⟨f, hf, hfname, d, hd, hdname⟩ := hedge
  have hfe : depEdge files a b := ⟨f, hf, hfname, d, hd, hdname⟩
  obtain ⟨r, hr, hrroot, hpath⟩ := root_climb files hacy
    ((files.map File.name).length + 1) f hf []
    (by simp) (by intro x hx; cases hx) (by simp)
    (by intro x hx; cases hx) (by simp)
  have hrmem : r.name ∈ rootNames files := rootNames_iff.mpr ⟨r, hr, hrroot, rfl⟩
  have hpath_a : Relation.ReflTransGen (depEdge files) r.name a := hfname ▸ hpath
  have hclosed := po_emit_closed D (files.map File.name) hDU fuel rs hfuel2
  have hemit : ∀ y, Relation.ReflTransGen (depEdge files) r.name y →
      y ∈ (print_order D fuel rs []).1 := by
    intro y hy
    induction hy with
    | refl => exact po_root_mem D fuel rs [] r.name ((hrs r.name).mpr hrmem)
    | tail hab hbc ih2 => exact hclosed _ _ ih2 ((hD _ _).mpr hbc)
  refine ⟨hemit a hpath_a, hemit b (Relation.ReflTransGen.tail hpath_a hfe), ?_⟩
  intro s t hsplit
  have hprec := po_prec D (fun x y => y ∈ D x) (files.map File.name)
    (fun _ _ => Iff.rfl) hDU hacyD fuel rs [] hfuel2 a b s t ((hD a b).mpr hfe) hsplit
  rcases hprec with h | h
  · cases h
  · exact h

def c1Top : File := ⟨"top.sv", [], ["leaf"], [], []⟩
def c1Leaf : File := ⟨"leaf.sv", ["leaf"], [], [], []⟩
def c1Files : List File := [c1Top, c1Leaf]

theorem c1Files_edge_char : ∀ x y, depEdge c1Files x y → x = "top.sv" ∧ y = "leaf.sv" := by
  rintro x y ⟨f, hf, rfl, d, hd, rfl⟩
  rcases List.mem_cons.mp hf with rfl | hf2
  · rw [show file_deps c1Files c1Top = [c1Leaf] from by decide] at hd
    rcases List.mem_cons.mp hd with rfl | h2
    · exact ⟨rfl, rfl⟩
    · cases h2
  · rcases List.mem_cons.mp hf2 with rfl | hf3
    · rw [show file_deps c1Files c1Leaf = [] from by decide] at hd
      cases hd
    · cases hf3

theorem c1Files_acyclic : ∀ z, ¬ Relation.TransGen (depEdge c1Files) z z :=
  acyclic_of_single_edge _ "top.sv" "leaf.sv" c1Files_edge_char (by decide)

theorem C1_witness :
    (print_order (canonD c1Files) 3 (rootNames c1Files) []).1 = ["leaf.sv", "top.sv"] ∧
      "top.sv" ∈ (print_order (canonD c1Files) 3 (rootNames c1Files) []).1 ∧
      "leaf.sv" ∈ (["leaf.sv"] : List String) :=
  ⟨by decide,
   (C1_acyclic_ordering c1Files (canonD c1Files) (rootNames c1Files) 3 "top.sv" "leaf.sv"
     (canonD_spec (by decide)) (fun _ => Iff.rfl) (by decide) c1Files_acyclic
     (by decide)).1,
   (C1_acyclic_ordering c1Files (canonD c1Files) (rootNames c1Files) 3 "top.sv" "leaf.sv"
     (canonD_spec (by decide)) (fun _ => Iff.rfl) (by decide) c1Files_acyclic
     (by decide)).2.2 ["leaf.sv"] [] (by decide)⟩

/-! ### Claim C4: no duplicates in the output -/

/-- **C4**: every file appears at most once in the emitted output — the
single global visited set is shared across all root traversals, and a root
is never re-emitted as another file's dependency.  Holds for every
hash-iteration order, every duplicate-free root enumeration and any fuel. -/
theorem C4_no_duplicates (files : List File) (D : String → List String)
    (rs : List String) (fuel : Nat)
    (hD : ∀ n m, m ∈ D n → depEdge files n m)
    (hrs : ∀ r ∈ rs, r ∈ rootNames files)
    (hnd : rs.Nodup) :
    (print_order D fuel rs []).1.Nodup := by
  refine po_nodup D fuel rs [] ?_ hnd (by intro x hx; cases hx)
  intro r hr g hrg
  exact rootNames_no_edge (hrs r hr) g (hD g r hrg)

def c4X : File := ⟨"x.sv", [], ["m"], [], []⟩
def c4Y : File := ⟨"y.sv", [], ["m"], [], []⟩
def c4Z : File := ⟨"z.sv", ["m"], [], [], []⟩
def c4Files : List File := [c4X, c4Y, c4Z]

theorem C4_witness :
    (print_order (canonD c4Files) 4 (rootNames c4Files) []).1 = ["z.sv", "x.sv", "y.sv"] ∧
      (print_order (canonD c4Files) 4 (rootNames c4Files) []).1.Nodup :=
  ⟨by decide,
   C4_no_duplicates c4Files (canonD c4Files) (rootNames c4Files) 4
     (fun n m hm => (canonD_spec (by decide) n m).mp hm) (fun _ hr => hr) (by decide)⟩

/-! ### Claim C7: termination, also on cycles -/

/-- **C7**: the dependency-first traversal terminates for every per-file
dependency relation, including cyclic ones: a file is marked visited before
its dependencies are recursed into, so the recursion depth is bounded by the
number of files and the modelled fuel is irrelevant once it exceeds that
bound — the engine cannot crash on cycles. -/
theorem C7_terminates (files : List File) (D : String → List String)
    (rs : List String) (fuel1 fuel2 : Nat)
    (hD : ∀ n m, m ∈ D n → m ∈ files.map File.name)
    (h1 : files.length < fuel1) (hle : fuel1 ≤ fuel2) :
    print_order D fuel1 rs [] = print_order D fuel2 rs [] := by
  apply po_stable D (files.map File.name) hD fuel1 fuel2 hle rs []
  rw [unvis_nil, List.length_map]
  exact h1

def c7P : File := ⟨"p.sv", ["mp"], ["mq"], [], []⟩
def c7Q : File := ⟨"q.sv", ["mq"], ["mp"], [], []⟩
def c7R : File := ⟨"r.sv", [], ["mp"], [], []⟩
def c7Files : List File := [c7P, c7Q, c7R]

theorem C7_witness :
    print_order (canonD c7Files) 4 (rootNames c7Files) [] =
      print_order (canonD c7Files) 9 (rootNames c7Files) [] :=
  C7_terminates c7Files (canonD c7Files) (rootNames c7Files) 4 9
    (fun n m hm => depEdge_target_mem ((canonD_spec (by decide) n m).mp hm))
    (by decide) (by decide)

/-! ### Claim C5: no self-edges -/

/-- Claim C5 as stated: the dependency set never contains the file itself,
and a use of a name that the file itself defines never produces an edge
from the file. -/
def selfUseClaim : Prop :=
  ∀ (files : List File) (f : File), f ∈ files →
    (∀ d ∈ file_deps files f, d.name ≠ f.name) ∧
    (∀ n ∈ f.modules_used, n ∈ f.modules_defined → moduleEdgeTarget files f n = none) ∧
    (∀ n ∈ f.packages_used, n ∈ f.packages_defined → packageEdgeTarget files f n = none)

def c5Self : File := ⟨"a.sv", ["m"], ["m"], [], []⟩
def c5Other : File := ⟨"b.sv", ["m"], [], [], []⟩
def c5Files : List File := [c5Self, c5Other]

/-- **C5 counterexample**: `a.sv` defines and uses module `m`, but `b.sv`
(later in input order) also defines `m`; the last-write-wins definition
table resolves the self-defined use to `b.sv`, producing an edge from
`a.sv` — the use of a self-defined name did produce a dependency edge. -/
theorem C5_counterexample : ¬ selfUseClaim := by
  intro h
  have hc := (h c5Files c5Self (by decide)).2.1 "m" (by decide) (by decide)
  exact absurd hc (by decide)

/-- **C5 (amended)**: the dependency set of a file never contains a file
with the same path, and a use of a name whose *resolved* definer (the last
file in input order defining it) has the file's own path produces no edge.
With duplicate definitions, a use of a self-defined name can still produce
an edge to the later definer. -/
theorem C5_no_self_edges (files : List File) (f : File) :
    (∀ d ∈ file_deps files f, d.name ≠ f.name) ∧
    (∀ n, (∀ g, module_defs files n = some g → g.name = f.name) →
      moduleEdgeTarget files f n = none) ∧
    (∀ n, (∀ g, package_defs files n = some g → g.name = f.name) →
      packageEdgeTarget files f n = none) := by
  refine ⟨fun d hd => file_deps_name_ne hd, ?_, ?_⟩
  · intro n hres
    unfold moduleEdgeTarget
    split
    next dep hm => rw [if_pos (hres dep hm)]
    next => rfl
  · intro n hres
    unfold packageEdgeTarget
    split
    next dep hp => rw [if_pos (hres dep hp)]
    next => rfl

def c5Solo : File := ⟨"a.sv", ["m"], ["m"], ["p"], ["p"]⟩
def c5SoloFiles : List File := [c5Solo]

theorem C5_witness :
    moduleEdgeTarget c5SoloFiles c5Solo "m" = none ∧
      packageEdgeTarget c5SoloFiles c5Solo "p" = none := by
  have h1 : ∀ g, module_defs c5SoloFiles "m" = some g → g.name = c5Solo.name := by
    intro g hg
    have he : module_defs c5SoloFiles "m" = some c5Solo := by decide
    rw [he] at hg
    injection hg with hg
    rw [← hg]
  have h2 : ∀ g, package_defs c5SoloFiles "p" = some g → g.name = c5Solo.name := by
    intro g hg
    have he : package_defs c5SoloFiles "p" = some c5Solo := by decide
    rw [he] at hg
    injection hg with hg
    rw [← hg]
  exact ⟨(C5_no_self_edges c5SoloFiles c5Solo).2.1 "m" h1,
         (C5_no_self_edges c5SoloFiles c5Solo).2.2 "p" h2⟩

/-! ### Claim C6: a priority-rule skip is backed by a package edge -/

/-- Claim C6 as stated: whenever the module pass skips the edge `F → D`
under the priority rule (some name in `D.packages_used` lies in
`F.packages_defined`), file `D` has a dependency edge on `F` produced by
the package pass. -/
def prioritySkipClaim : Prop :=
  ∀ (files : List File) (F Dp : File) (m p : String),
    F ∈ files → Dp ∈ files →
    module_defs files m = some Dp → Dp.name ≠ F.name →
    p ∈ Dp.packages_used → p ∈ F.packages_defined →
    ∃ d ∈ file_deps files Dp, d.name = F.name

def c6F : File := ⟨"f.sv", [], ["m"], ["p"], []⟩
def c6D : File := ⟨"d.sv", ["m"], [], ["p"], ["p"]⟩
def c6Files : List File := [c6F, c6D]

/-- **C6 counterexample**: `d.sv` defines module `m` and both uses *and*
defines package `p`; `f.sv` uses `m` and defines `p`.  The module edge
`f.sv → d.sv` is skipped by the priority rule, but the package pass resolves
`p` (last-write-wins) to `d.sv` itself, so no edge `d.sv → f.sv` exists. -/
theorem C6_counterexample : ¬ prioritySkipClaim := by
  intro h
  have hc := h c6Files c6F c6D "m" "p" (by decide) (by decide) (by decide)
    (by decide) (by decide) (by decide)
  exact absurd hc (by decide)

/-- **C6 (amended)**: if the module pass skips the edge `F → D` because of a
shared package name `p`, and the package-definition table resolves `p` to a
file with `F`'s path, then `D` has a dependency edge on `F` via the package
pass.  (Without the resolution condition the claim fails when another file —
possibly `D` itself — re-defines `p` later in input order.) -/
theorem C6_priority_skip (files : List File) (F Dp F2 : File) (m p : String)
    (hm : module_defs files m = some Dp) (hne : Dp.name ≠ F.name)
    (hp1 : p ∈ Dp.packages_used) (hp2 : p ∈ F.packages_defined)
    (hres : package_defs files p = some F2) (hFname : F2.name = F.name) :
    moduleEdgeTarget files F m = none ∧ ∃ d ∈ file_deps files Dp, d.name = F.name := by
  refine ⟨moduleEdgeTarget_skip hm hne hp1 hp2, ⟨F2, ?_, hFname⟩⟩
  refine packageEdgeTarget_mem_deps hp1 (packageEdgeTarget_eq hres ?_)
  exact fun hc => hne (hc.symm.trans hFname)

def c6wF : File := ⟨"f.sv", [], ["m"], ["p"], []⟩
def c6wD : File := ⟨"d.sv", ["m"], [], [], ["p"]⟩
def c6wFiles : List File := [c6wF, c6wD]

theorem C6_witness :
    moduleEdgeTarget c6wFiles c6wF "m" = none ∧
      ∃ d ∈ file_deps c6wFiles c6wD, d.name = c6wF.name :=
  C6_priority_skip c6wFiles c6wF c6wD c6wF "m" "p" (by decide) (by decide)
    (by decide) (by decide) (by decide) rfl

/-! ### Claim C9: unresolved names produce no edges; such files stay roots -/

/-- **C9**: a used module/package name with no definition among the input
files produces no dependency edge (and no error); a file all of whose used
names are unresolved has an empty dependency set and, when no other file
references it, is a root and is still emitted. -/
theorem C9_unresolved_names (files : List File) (D : String → List String)
    (rs : List String) (fuel : Nat) (f : File)
    (hf : f ∈ files)
    (hmu : ∀ n ∈ f.modules_used, module_defs files n = none)
    (hpu : ∀ n ∈ f.packages_used, package_defs files n = none)
    (hnr : ∀ g ∈ files, ∀ d ∈ file_deps files g, d.name ≠ f.name)
    (hrs : ∀ r, r ∈ rs ↔ r ∈ rootNames files) :
    (∀ (g : File) (n : String), module_defs files n = none →
      moduleEdgeTarget files g n = none) ∧
    (∀ (g : File) (n : String), package_defs files n = none →
      packageEdgeTarget files g n = none) ∧
    file_deps files f = [] ∧ isRoot files f = true ∧
    f.name ∈ (print_order D fuel rs []).1 := by
  have hmt : ∀ (g : File) (n : String), module_defs files n = none →
      moduleEdgeTarget files g n = none := by
    intro g n hn; unfold moduleEdgeTarget; rw [hn]
  have hpt : ∀ (g : File) (n : String), package_defs files n = none →
      packageEdgeTarget files g n = none := by
    intro g n hn; unfold packageEdgeTarget; rw [hn]
  have h1 : f.packages_used.filterMap (packageEdgeTarget files f) = [] :=
    List.filterMap_eq_nil_iff.mpr (fun p hp => hpt f p (hpu p hp))
  have h2 : f.modules_used.filterMap (moduleEdgeTarget files f) = [] :=
    List.filterMap_eq_nil_iff.mpr (fun m hm => hmt f m (hmu m hm))
  have hdeps : file_deps files f = [] := by
    unfold file_deps
    rw [h1, h2]
    rfl
  have hroot : isRoot files f = true := isRoot_iff.mpr hnr
  refine ⟨hmt, hpt, hdeps, hroot, ?_⟩
  have hmem : f.name ∈ rs := (hrs f.name).mpr (rootNames_iff.mpr ⟨f, hf, hroot, rfl⟩)
  exact po_root_mem D fuel rs [] f.name hmem

def c9U : File := ⟨"u.sv", [], ["UNDEFINED_EXTERNAL"], [], ["UPKG"]⟩
def c9Files : List File := [c9U]

theorem C9_witness :
    moduleEdgeTarget c9Files c9U "UNDEFINED_EXTERNAL" = none ∧
      file_deps c9Files c9U = [] ∧ isRoot c9Files c9U = true ∧
      "u.sv" ∈ (print_order (canonD c9Files) 2 (rootNames c9Files) []).1 := by
  have hmu : ∀ n ∈ c9U.modules_used, module_defs c9Files n = none := by
    intro n hn
    have : n = "UNDEFINED_EXTERNAL" := by simpa [c9U] using hn
    subst this; decide
  have hpu : ∀ n ∈ c9U.packages_used, package_defs c9Files n = none := by
    intro n hn
    have : n = "UPKG" := by simpa [c9U] using hn
    subst this; decide
  have hnr : ∀ g ∈ c9Files, ∀ d ∈ file_deps c9Files g, d.name ≠ c9U.name := by
    intro g hg
    have : g = c9U := by simpa [c9Files] using hg
    subst this
    rw [show file_deps c9Files c9U = [] from by decide]
    intro d hd
    cases hd
  obtain ⟨hmt, _, hdeps, hroot, hmem⟩ := C9_unresolved_names c9Files (canonD c9Files)
    (rootNames c9Files) 2 c9U (by decide) hmu hpu hnr (fun _ => Iff.rfl)
  exact ⟨hmt c9U "UNDEFINED_EXTERNAL" (by decide), hdeps, hroot, hmem⟩

/-! ### Claim C10: include directories passed to the parser -/

/-- The include-directory list `File::new` passes to `parse_sv`: the
user-supplied `--include-path` directories copied into a vector, with the
file's own parent directory pushed at the end.  Path semantics live outside
the core, so the parent-directory computation is a parameter. -/
def fileNewIncdirs (parentOf : String → String) (incdirs : List String) (path : String) :
    List String :=
  incdirs ++ [parentOf path]

/-- **C10**: the parser is invoked with the include-search directories equal
to the user-supplied directories plus the file's own parent directory
appended: the user directories are kept (as a prefix, in order), the parent
directory is present, it comes last, and nothing else is added. -/
theorem C10_parser_incdirs (parentOf : String → String) (incdirs : List String)
    (path : String) :
    fileNewIncdirs parentOf incdirs path = incdirs ++ [parentOf path] ∧
    (∀ d ∈ incdirs, d ∈ fileNewIncdirs parentOf incdirs path) ∧
    parentOf path ∈ fileNewIncdirs parentOf incdirs path ∧
    (fileNewIncdirs parentOf incdirs path).getLast? = some (parentOf path) ∧
    (fileNewIncdirs parentOf incdirs path).length = incdirs.length + 1 := by
  refine ⟨rfl, ?_, ?_, ?_, ?_⟩
  · intro d hd
    exact List.mem_append.mpr (Or.inl hd)
  · exact List.mem_append.mpr (Or.inr (by simp))
  · exact List.getLast?_concat _
  · simp [fileNewIncdirs]

/-! ### Claim C2: the priority rule -/

/-- Claim C2 as stated: for every pair of input files A and B where A
defines package P and uses module M, and B defines module M and uses
package P (and no other file defines P or M), the resolver records no edge
A → B, records the edge B → A, and the output places A before B. -/
def priorityRuleClaim : Prop :=
  ∀ (files : List File) (A B : File) (P M : String),
    A ∈ files → B ∈ files → A.name ≠ B.name →
    P ∈ A.packages_defined → M ∈ A.modules_used →
    M ∈ B.modules_defined → P ∈ B.packages_used →
    (∀ f ∈ files, f.name ≠ A.name → P ∉ f.packages_defined) →
    (∀ f ∈ files, f.name ≠ B.name → M ∉ f.modules_defined) →
    (¬ ∃ d ∈ file_deps files A, d.name = B.name) ∧
    (∃ d ∈ file_deps files B, d.name = A.name) ∧
    ∀ (D : String → List String) (rs : List String) (fuel : Nat) (s t : List String),
      (∀ n m, m ∈ D n ↔ depEdge files n m) →
      (∀ r, r ∈ rs ↔ r ∈ rootNames files) →
      files.length < fuel →
      (print_order D fuel rs []).1 = s ++ B.name :: t → A.name ∈ s

def c2xA : File := ⟨"A", [], ["M"], ["P"], ["Q"]⟩
def c2xB : File := ⟨"B", ["M"], [], ["Q"], ["P"]⟩
def c2xFiles : List File := [c2xA, c2xB]

/-- **C2 counterexample**: A additionally uses package Q, which B defines;
the package pass then records the edge A → B even though the module edge
A → B is skipped, so the claim's "no edge A → B" part fails. -/
theorem C2_counterexample : ¬ priorityRuleClaim := by
  intro h
  have hc := h c2xFiles c2xA c2xB "P" "M" (by decide) (by decide) (by decide)
    (by decide) (by decide) (by decide) (by decide) (by decide) (by decide)
  exact absurd (by decide : ∃ d ∈ file_deps c2xFiles c2xA, d.name = c2xB.name) hc.1

def c2A : File := ⟨"A", [], ["M"], ["P"], []⟩
def c2B : File := ⟨"B", ["M"], [], [], ["P"]⟩
def c2Files : List File := [c2A, c2B]

theorem c2Files_edge_char : ∀ x y, depEdge c2Files x y → x = "B" ∧ y = "A" := by
  rintro x y ⟨f, hf, rfl, d, hd, rfl⟩
  rcases List.mem_cons.mp hf with rfl | hf2
  · rw [show file_deps c2Files c2A = [] from by decide] at hd
    cases hd
  · rcases List.mem_cons.mp hf2 with rfl | hf3
    · rw [show file_deps c2Files c2B = [c2A] from by decide] at hd
      rcases List.mem_cons.mp hd with rfl | h2
      · exact ⟨rfl, rfl⟩
      · cases h2
    · cases hf3

theorem c2Files_acyclic : ∀ z, ¬ Relation.TransGen (depEdge c2Files) z z :=
  acyclic_of_single_edge _ "B" "A" c2Files_edge_char (by decide)

/-- **C2 (amended)**: for the two-file input where A's symbol sets are
exactly `packages_defined = {P}`, `modules_used = {M}` and B's are exactly
`modules_defined = {M}`, `packages_used = {P}`, the resolver records no edge
A → B (the module edge is skipped by the priority rule), records the edge
B → A via the package pass, and every emitted output places A strictly
before B.  (The universally quantified original fails as soon as A also
uses a package defined by B: the package pass then records A → B.) -/
theorem C2_priority_rule (D : String → List String) (rs : List String) (fuel : Nat)
    (hD : ∀ n m, m ∈ D n ↔ depEdge c2Files n m)
    (hrs : ∀ r, r ∈ rs ↔ r ∈ rootNames c2Files)
    (hfuel : 2 < fuel) :
    (¬ ∃ d ∈ file_deps c2Files c2A, d.name = "B") ∧
    (∃ d ∈ file_deps c2Files c2B, d.name = "A") ∧
    (∀ s t, (print_order D fuel rs []).1 = s ++ "B" :: t → "A" ∈ s) := by
  refine ⟨by decide, by decide, ?_⟩
  intro s t hsplit
  have hDU : ∀ x y, y ∈ D x → y ∈ c2Files.map File.name := fun x y hy =>
    depEdge_target_mem ((hD x y).mp hy)
  have hacyD : ∀ z, ¬ Relation.TransGen (fun x y => y ∈ D x) z z := fun z hz =>
    c2Files_acyclic z (Relation.TransGen.mono (fun x y hxy => (hD x y).mp hxy) hz)
  have hfuel2 : unvis (c2Files.map File.name) [] < fuel := by
    rw [unvis_nil, show (c2Files.map File.name).length = 2 from rfl]
    exact hfuel
  rcases po_prec D (fun x y => y ∈ D x) (c2Files.map File.name) (fun _ _ => Iff.rfl)
      hDU hacyD fuel rs [] hfuel2 "B" "A" s t ((hD "B" "A").mpr (by decide)) hsplit with h | h
  · cases h
  · exact h

theorem C2_witness :
    (print_order (canonD c2Files) 3 (rootNames c2Files) []).1 = ["A", "B"] ∧
      "A" ∈ (["A"] : List String) :=
  ⟨by decide,
   (C2_priority_rule (canonD c2Files) (rootNames c2Files) 3
     (canonD_spec (by decide)) (fun _ => Iff.rfl) (by decide)).2.2 ["A"] [] (by decide)⟩

/-! ### Claim C3: order of the root traversals -/

/-- Claim C3 as stated: the engine visits the roots in the input files'
natural order — i.e. every valid enumeration of the `file_users` hash map's
root keys equals the roots in input order. -/
def rootOrderClaim : Prop :=
  ∀ (files : List File) (rs : List String),
    (∀ r, r ∈ rs ↔ r ∈ rootNames files) → rs.Nodup → rs = rootNames files

def c3R1 : File := ⟨"r1.sv", [], [], [], []⟩
def c3R2 : File := ⟨"r2.sv", [], [], [], []⟩
def c3Files : List File := [c3R1, c3R2]

theorem c3_enum_iff : ∀ r, r ∈ (["r2.sv", "r1.sv"] : List String) ↔ r ∈ rootNames c3Files := by
  intro r
  rw [show rootNames c3Files = ["r1.sv", "r2.sv"] from by decide]
  simp only [List.mem_cons, List.not_mem_nil, or_false]
  tauto

/-- **C3 counterexample**: the roots come from iterating a `HashMap` whose
iteration order is unspecified (randomized per process); the reversed
enumeration of the two roots of this input is a valid execution whose
traversal order is not the input order. -/
theorem C3_counterexample : ¬ rootOrderClaim := by
  intro h
  have hc := h c3Files ["r2.sv", "r1.sv"] c3_enum_iff (by decide)
  exact absurd hc (by decide)

/-- **C3 (amended)**: the engine visits each root exactly once, in an
unspecified hash-map iteration order: every valid root enumeration is a
permutation of the input files with empty dependents sets (in particular
the *set* of traversal starting points is exactly the roots), but it need
not be the input order. -/
theorem C3_root_set (files : List File) (rs : List String)
    (hnames : (files.map File.name).Nodup)
    (hrs : ∀ r, r ∈ rs ↔ r ∈ rootNames files) (hnd : rs.Nodup) :
    rs.Perm (rootNames files) := by
  have hrn : (rootNames files).Nodup := by
    unfold rootNames
    exact List.Nodup.sublist ((List.filter_sublist files).map File.name) hnames
  exact (List.perm_ext_iff_of_nodup hnd hrn).mpr hrs

theorem C3_witness : (["r2.sv", "r1.sv"] : List String).Perm (rootNames c3Files) :=
  C3_root_set c3Files ["r2.sv", "r1.sv"] (by decide) c3_enum_iff (by decide)

/-! ### Claim C8: cycle containment -/

/-- **C8**: files P and Q mutually use each other's modules, with no
package-pass override and no other input file depending on either: neither
is a root and both are absent from the emitted output, for every iteration
order and any fuel (the cycle is invisible to the traversal, not a crash). -/
theorem C8_cycle_containment (files : List File) (Pf Qf : File) (mP mQ : String)
    (D : String → List String) (rs : List String) (fuel : Nat)
    (hnames : (files.map File.name).Nodup)
    (hP : Pf ∈ files) (hQ : Qf ∈ files) (hne : Pf.name ≠ Qf.name)
    (hm1 : mQ ∈ Pf.modules_used) (hm1d : module_defs files mQ = some Qf)
    (hov1 : ∀ p ∈ Qf.packages_used, p ∉ Pf.packages_defined)
    (hm2 : mP ∈ Qf.modules_used) (hm2d : module_defs files mP = some Pf)
    (hov2 : ∀ p ∈ Pf.packages_used, p ∉ Qf.packages_defined)
    (hnoext : ∀ g ∈ files, g.name ≠ Pf.name → g.name ≠ Qf.name →
      ∀ d ∈ file_deps files g, d.name ≠ Pf.name ∧ d.name ≠ Qf.name)
    (hD : ∀ n m, m ∈ D n ↔ depEdge files n m)
    (hrs : ∀ r, r ∈ rs ↔ r ∈ rootNames files) :
    isRoot files Pf = false ∧ isRoot files Qf = false ∧
    Pf.name ∉ (print_order D fuel rs []).1 ∧
    Qf.name ∉ (print_order D fuel rs []).1 := by
  have hedgePQ : Qf ∈ file_deps files Pf :=
    moduleEdgeTarget_mem_deps hm1 (moduleEdgeTarget_eq hm1d (fun h => hne h.symm) hov1)
  have hedgeQP : Pf ∈ file_deps files Qf :=
    moduleEdgeTarget_mem_deps hm2 (moduleEdgeTarget_eq hm2d hne hov2)
  have hrootP : isRoot files Pf = false := isRoot_false_of_edge hQ hedgeQP rfl
  have hrootQ : isRoot files Qf = false := isRoot_false_of_edge hP hedgePQ rfl
  have hclosed : ∀ a b, depEdge files a b → (b = Pf.name ∨ b = Qf.name) →
      (a = Pf.name ∨ a = Qf.name) := by
    rintro a b ⟨g, hg, rfl, d, hd, rfl⟩ hSb
    by_cases hgP : g.name = Pf.name
    · exact Or.inl hgP
    · by_cases hgQ : g.name = Qf.name
      · exact Or.inr hgQ
      · obtain ⟨h1, h2⟩ := hnoext g hg hgP hgQ d hd
        rcases hSb with hb | hb
        · exact absurd hb h1
        · exact absurd hb h2
  have hrootS : ∀ r, r ∈ rs → (r = Pf.name ∨ r = Qf.name) → False := by
    intro r hr hSr
    obtain ⟨f2, hf2, hf2root, hf2name⟩ := rootNames_iff.mp ((hrs r).mp hr)
    rcases hSr with hb | hb
    · have he : f2 = Pf := List.inj_on_of_nodup_map hnames hf2 hP (by rw [hf2name, hb])
      rw [he, hrootP] at hf2root
      cases hf2root
    · have he : f2 = Qf := List.inj_on_of_nodup_map hnames hf2 hQ (by rw [hf2name, hb])
      rw [he, hrootQ] at hf2root
      cases hf2root
  have habs : ∀ x : String, (x = Pf.name ∨ x = Qf.name) →
      x ∉ (print_order D fuel rs []).1 := by
    intro x hSx hmem
    rcases po_reach D (fun u v => v ∈ D u) (fun _ _ hv => hv) fuel rs [] x hmem with
      hxrs | ⟨r, hr, hreach⟩
    · exact hrootS x hxrs hSx
    · have hreach2 : Relation.TransGen (depEdge files) r x :=
        Relation.TransGen.mono (fun u v huv => (hD u v).mp huv) hreach
      exact hrootS r hr (reflTransGen_closed (depEdge files) _ hclosed r x
        hreach2.to_reflTransGen hSx)
  exact ⟨hrootP, hrootQ, habs Pf.name (Or.inl rfl), habs Qf.name (Or.inr rfl)⟩

def c8P : File := ⟨"p.sv", ["mp"], ["mq"], [], []⟩
def c8Q : File := ⟨"q.sv", ["mq"], ["mp"], [], []⟩
def c8Files : List File := [c8P, c8Q]

theorem C8_witness :
    isRoot c8Files c8P = false ∧ isRoot c8Files c8Q = false ∧
      "p.sv" ∉ (print_order (canonD c8Files) 3 (rootNames c8Files) []).1 ∧
      "q.sv" ∉ (print_order (canonD c8Files) 3 (rootNames c8Files) []).1 :=
  C8_cycle_containment c8Files c8P c8Q "mp" "mq" (canonD c8Files) (rootNames c8Files) 3
    (by decide) (by decide) (by decide) (by decide) (by decide) (by decide) (by decide)
    (by decide) (by decide) (by decide) (by decide)
    (canonD_spec (by decide)) (fun _ => Iff.rfl)

end SvAutoOrder
